import Mathlib

/-!
Shallow embedding of `crates/sui-proxy/src/peers.rs`: the peer trust-set
manager of the sui metrics proxy.  The Rust code keeps a
`HashMap<Ed25519PublicKey, SuiPeer>` behind an `Arc<RwLock<..>>`; a
background loop (`poll_peer_list`) periodically fetches the validator set
summary over JSON-RPC (`get_validators`), extracts peer records
(`extract`), and replaces the map contents under the write lock.  Readers
use `allowed` (the `Allower` impl) and `get`.

The `HashMap` is modelled as an association list with unique keys: `insert`
overwrites the entry for an existing key, `find?` returns the stored value,
`extend` folds `insert` over a list of pairs, exactly the semantics of
`HashMap::insert` / `HashMap::get` / `HashMap::extend`.
-/

/-- Modelled from the spec: `fastcrypto::ed25519::Ed25519PublicKey` lives
outside this repository.  The spec describes it as a fixed-size
asymmetric-key identity in raw byte encoding, with equality over the raw
bytes; an ed25519 public key is 32 bytes (the spec's concrete scenario has a
31-byte input fail to decode). -/
structure Ed25519PublicKey where
  bytes : List Nat
deriving DecidableEq, Repr

/-- Modelled from the spec: `Ed25519PublicKey::from_bytes` (the
`ToFromBytes` impl) lives outside this repository.  Decoding succeeds
exactly on inputs of the fixed key size, 32 bytes. -/
def Ed25519PublicKey.fromBytes (bs : List Nat) : Option Ed25519PublicKey :=
  if bs.length = 32 then some ⟨bs⟩ else none

/-- Modelled from the spec: the `multiaddr` crate lives outside this
repository.  The spec only requires a structured, protocol-aware address
obtained by parsing a raw string, where parsing can fail; the model keeps
that success/failure structure, accepting the slash-led shape of the
spec's example address and rejecting other strings. -/
structure Multiaddr where
  repr : String
deriving DecidableEq, Repr

/-- Modelled from the spec: `Multiaddr::try_from(String)`, see `Multiaddr`. -/
def Multiaddr.tryFrom (s : String) : Option Multiaddr :=
  match s.data with
  | [] => none
  | c :: rest => if c = '/' && rest.length > 0 then some ⟨s⟩ else none

/-- The fields of `sui_types`' `SuiValidatorSummary` that `peers.rs` reads:
`name`, `network_pubkey_bytes`, `p2p_address` (and `sui_address`, used only
in a diagnostic). -/
structure SuiValidatorSummary where
  name : String
  network_pubkey_bytes : List Nat
  p2p_address : String
  sui_address : String
deriving DecidableEq, Repr

/-- The field of `sui_types`' `SuiSystemStateSummary` that `peers.rs`
reads: the list of active validators. -/
structure SuiSystemStateSummary where
  active_validators : List SuiValidatorSummary
deriving DecidableEq, Repr

/-- `SuiPeer`: the collated data kept per validator
(`peers.rs`, `struct SuiPeer`). -/
structure SuiPeer where
  name : String
  p2p_address : Multiaddr
  public_key : Ed25519PublicKey
deriving DecidableEq, Repr

/-- The map contents behind `SuiPeers = Arc<RwLock<HashMap<..>>>`:
an association list with unique keys standing for the `HashMap`. -/
abbrev SuiPeers := List (Ed25519PublicKey × SuiPeer)

/-- `HashMap::insert` semantics: overwrite the value at an existing key,
otherwise append the new entry. -/
def SuiPeers.insert (m : SuiPeers) (k : Ed25519PublicKey) (v : SuiPeer) : SuiPeers :=
  match m with
  | [] => [(k, v)]
  | (k', v') :: rest =>
      if k' = k then (k, v) :: rest else (k', v') :: SuiPeers.insert rest k v

/-- `HashMap::get` semantics. -/
def SuiPeers.find? (m : SuiPeers) (k : Ed25519PublicKey) : Option SuiPeer :=
  match m with
  | [] => none
  | (k', v) :: rest => if k' = k then some v else SuiPeers.find? rest k

/-- `HashMap::contains_key` semantics. -/
def SuiPeers.containsKey (m : SuiPeers) (k : Ed25519PublicKey) : Bool :=
  (SuiPeers.find? m k).isSome

/-- `HashMap::extend`: insert every pair in order (later pairs overwrite
earlier ones at the same key). -/
def SuiPeers.extendWith (m : SuiPeers) (l : List (Ed25519PublicKey × SuiPeer)) : SuiPeers :=
  l.foldl (fun acc kv => SuiPeers.insert acc kv.1 kv.2) m

/-- `HashMap::clear`. -/
def SuiPeers.clear (_ : SuiPeers) : SuiPeers := []

/-- `impl Allower for SuiNodeProvider`: `allowed` is `contains_key` on the
current map (`peers.rs` lines 39-43). -/
def SuiNodeProvider.allowed (nodes : SuiPeers) (key : Ed25519PublicKey) : Bool :=
  SuiPeers.containsKey nodes key

/-- `SuiNodeProvider::get` (`peers.rs` lines 56-66): look the key up and
return a field-by-field copy of the stored record. -/
def SuiNodeProvider.get (nodes : SuiPeers) (key : Ed25519PublicKey) : Option SuiPeer :=
  match SuiPeers.find? nodes key with
  | some v => some { name := v.name, p2p_address := v.p2p_address, public_key := v.public_key }
  | none => none

/-- The per-record body of the `filter_map` in `extract`
(`peers.rs` lines 149-168): decode the public key bytes; on success, parse
the p2p address; either failure drops this record alone.  On success the
emitted pair carries the decoded key both as map key and inside the
record. -/
def extractRecord (vm : SuiValidatorSummary) : Option (Ed25519PublicKey × SuiPeer) :=
  match Ed25519PublicKey.fromBytes vm.network_pubkey_bytes with
  | some public_key =>
      match Multiaddr.tryFrom vm.p2p_address with
      | some p2p_address =>
          some (public_key,
            { name := vm.name, p2p_address := p2p_address, public_key := public_key })
      | none => none
  | none => none

/-- `extract` (`peers.rs` lines 149-168): `filter_map` of `extractRecord`
over the active validators. -/
def extract (summary : SuiSystemStateSummary) : List (Ed25519PublicKey × SuiPeer) :=
  summary.active_validators.filterMap extractRecord

/-- The failure kinds `get_validators` (`peers.rs` lines 78-114) can
return: the `context` on `send()` (transport), the `context` on `bytes()`
(body read), and the `bail!` on `serde_json::from_slice` (decode; the
single `from_slice` covers both malformed JSON and schema mismatch). -/
inductive GetValidatorsError where
  | transport
  | bodyRead
  | decode
deriving DecidableEq, Repr

/-- Modelled from the spec: the response body handed to
`serde_json::from_slice` (serde lives outside this repository).  A body
either is a well-formed envelope `{"result": summary}` or fails to decode
(malformed JSON or schema mismatch alike). -/
inductive RawBody where
  | malformed (text : String)
  | envelope (result : SuiSystemStateSummary)
deriving DecidableEq, Repr

/-- Modelled from the spec: `serde_json::from_slice::<ResponseBody>`, see
`RawBody`. -/
def decodeBody : RawBody → Option SuiSystemStateSummary
  | RawBody.malformed _ => none
  | RawBody.envelope result => some result

/-- An HTTP response as `get_validators` sees it: a status code and a
body.  `reqwest`'s `send()` succeeds on any status reachable over the
wire, including non-success ones. -/
structure HttpResponse where
  status : Nat
  body : RawBody
deriving DecidableEq, Repr

/-- The outcome of the network interaction in `get_validators`: `send()`
fails, `bytes()` fails, or a full response arrives. -/
inductive FetchOutcome where
  | sendFailure
  | bodyFailure
  | response (r : HttpResponse)
deriving DecidableEq, Repr

/-- `get_validators` (`peers.rs` lines 78-114) as a function of the
network outcome: a `send()` error maps to the transport context, a
`bytes()` error to the body-read context, an undecodable body to the
`bail!`, and a decodable body to `Ok(body.result)`.  The status code of a
received response is never inspected. -/
def get_validators : FetchOutcome → Except GetValidatorsError SuiSystemStateSummary
  | FetchOutcome.sendFailure => Except.error GetValidatorsError.transport
  | FetchOutcome.bodyFailure => Except.error GetValidatorsError.bodyRead
  | FetchOutcome.response r =>
      match decodeBody r.body with
      | some summary => Except.ok summary
      | none => Except.error GetValidatorsError.decode

/-- One iteration of the loop body in `poll_peer_list`
(`peers.rs` lines 127-141) as a transformer of the map contents: on a
successful fetch, take the write lock, `clear` the map and `extend` it
with the extracted peers; on a fetch error, only log -- the map is
untouched. -/
def pollCycle (fetched : Except GetValidatorsError SuiSystemStateSummary)
    (nodes : SuiPeers) : SuiPeers :=
  match fetched with
  | Except.ok summary => SuiPeers.extendWith (SuiPeers.clear nodes) (extract summary)
  | Except.error _ => nodes

/-- The map states reachable in a `SuiNodeProvider`: `new()` starts from
the empty map, and each tick of `poll_peer_list` applies `pollCycle` for
some fetch result. -/
inductive Reachable : SuiPeers → Prop where
  | init : Reachable []
  | step (m : SuiPeers) (r : Except GetValidatorsError SuiSystemStateSummary) :
      Reachable m → Reachable (pollCycle r m)

/-- A record is kept by `extract` iff its key bytes decode and its address
parses. -/
def validRecord (vm : SuiValidatorSummary) : Bool :=
  (Ed25519PublicKey.fromBytes vm.network_pubkey_bytes).isSome &&
    (Multiaddr.tryFrom vm.p2p_address).isSome

/-!
The write-lock discipline of the successful branch of `poll_peer_list`:
the writer acquires the `RwLock` write guard, clears, extends, and drops
the guard.  `RwLock` blocks `read()` while the write guard is held, so a
reader can observe the map only when the writer does not hold the lock.
-/

/-- The atomic micro-steps the writer performs on the shared
`Arc<RwLock<HashMap>>` in the success branch of `poll_peer_list`. -/
inductive WriterStep where
  | acquire
  | clearStep
  | extendStep
  | release
deriving DecidableEq, Repr

/-- The shared state: whether the write guard is held, and the map
contents. -/
structure LockState where
  writerHolds : Bool
  nodes : SuiPeers
deriving DecidableEq, Repr

/-- Effect of one writer micro-step on the shared state. -/
def runStep (peers : List (Ed25519PublicKey × SuiPeer)) (s : LockState) :
    WriterStep → LockState
  | WriterStep.acquire => { s with writerHolds := true }
  | WriterStep.clearStep => { s with nodes := SuiPeers.clear s.nodes }
  | WriterStep.extendStep => { s with nodes := SuiPeers.extendWith s.nodes peers }
  | WriterStep.release => { s with writerHolds := false }

/-- The exact sequence of micro-steps in the success branch of
`poll_peer_list`: `nodes.write()`, `allow.clear()`, `allow.extend(peers)`,
drop of the guard. -/
def installSteps : List WriterStep :=
  [WriterStep.acquire, WriterStep.clearStep, WriterStep.extendStep, WriterStep.release]

/-- The shared state after the first `n` micro-steps of an install that
replaces `old` with the peers `peers`. -/
def execSteps (old : SuiPeers) (peers : List (Ed25519PublicKey × SuiPeer)) (n : Nat) :
    LockState :=
  (installSteps.take n).foldl (runStep peers) { writerHolds := false, nodes := old }

/-- What a concurrent `read()` can see: `none` while the write guard is
held (the reader blocks), otherwise the map contents. -/
def observable (s : LockState) : Option SuiPeers :=
  if s.writerHolds then none else some s.nodes

/-- The value paired with the LAST occurrence of `k` in a pair list,
`none` when `k` never occurs: the overwrite order of `HashMap::extend`,
where later pairs win. -/
def SuiPeers.lastValue? (l : List (Ed25519PublicKey × SuiPeer)) (k : Ed25519PublicKey) :
    Option SuiPeer :=
  match l with
  | [] => none
  | kv :: rest =>
      (SuiPeers.lastValue? rest k).or (if kv.1 = k then some kv.2 else none)

/-- Concrete validator record for witnesses (the spec's three-validator
scenario, validator #1: 32 key bytes, parseable address). -/
def validator1 : SuiValidatorSummary :=
  { name := "validator-1", network_pubkey_bytes := List.replicate 32 1,
    p2p_address := "/ip4/127.0.0.1/tcp/10000", sui_address := "0x1" }

/-- Validator #2 of the spec's scenario: 31 raw key bytes, so the key
fails to decode. -/
def validator2bad : SuiValidatorSummary :=
  { name := "validator-2", network_pubkey_bytes := List.replicate 31 2,
    p2p_address := "/ip4/127.0.0.1/tcp/10001", sui_address := "0x2" }

/-- Validator #3 of the spec's scenario: valid. -/
def validator3 : SuiValidatorSummary :=
  { name := "validator-3", network_pubkey_bytes := List.replicate 32 3,
    p2p_address := "/ip4/127.0.0.1/tcp/10002", sui_address := "0x3" }

/-- A second valid record carrying the same public key as `validator1`
but a different name and address. -/
def validator1dup : SuiValidatorSummary :=
  { name := "validator-1-dup", network_pubkey_bytes := List.replicate 32 1,
    p2p_address := "/ip4/127.0.0.1/tcp/10009", sui_address := "0x9" }

/-- The decoded public key of `validator1` (and of `validator1dup`). -/
def key1 : Ed25519PublicKey := ⟨List.replicate 32 1⟩

/-- The peer record `extract` produces for `validator1`. -/
def peer1 : SuiPeer :=
  { name := "validator-1", p2p_address := ⟨"/ip4/127.0.0.1/tcp/10000"⟩, public_key := key1 }

/-- A one-validator summary. -/
def summary1 : SuiSystemStateSummary := ⟨[validator1]⟩

/-- A summary with two valid records sharing one public key. -/
def dupSummary : SuiSystemStateSummary := ⟨[validator1, validator1dup]⟩

/-! ## Lemmas about the map model -/

theorem SuiPeers.find?_insert (m : SuiPeers) (k : Ed25519PublicKey) (v : SuiPeer)
    (q : Ed25519PublicKey) :
    SuiPeers.find? (SuiPeers.insert m k v) q =
      if k = q then some v else SuiPeers.find? m q := by
  induction m with
  | nil => simp [SuiPeers.insert, SuiPeers.find?]
  | cons kv rest ih =>
      obtain ⟨ka, va⟩ := kv
      by_cases h1 : ka = k <;> by_cases h3 : k = q <;>
        simp_all [SuiPeers.insert, SuiPeers.find?]

theorem SuiPeers.find?_extendWith (l : List (Ed25519PublicKey × SuiPeer)) (m : SuiPeers)
    (k : Ed25519PublicKey) :
    SuiPeers.find? (SuiPeers.extendWith m l) k =
      (SuiPeers.lastValue? l k).or (SuiPeers.find? m k) := by
  induction l generalizing m with
  | nil => simp [SuiPeers.extendWith, SuiPeers.lastValue?, Option.none_or]
  | cons kv rest ih =>
      have step : SuiPeers.extendWith m (kv :: rest) =
          SuiPeers.extendWith (SuiPeers.insert m kv.1 kv.2) rest := rfl
      rw [step, ih, SuiPeers.find?_insert]
      rw [SuiPeers.lastValue?, Option.or_assoc]
      congr 1
      by_cases h : kv.1 = k <;> simp [h, Option.none_or]

theorem SuiPeers.lastValue?_mem (l : List (Ed25519PublicKey × SuiPeer))
    (k : Ed25519PublicKey) (p : SuiPeer)
    (h : SuiPeers.lastValue? l k = some p) : (k, p) ∈ l := by
  induction l with
  | nil => simp [SuiPeers.lastValue?] at h
  | cons kv rest ih =>
      rw [SuiPeers.lastValue?] at h
      cases hrest : SuiPeers.lastValue? rest k with
      | some q =>
          rw [hrest] at h
          have h' : some q = some p := h
          injection h' with hq
          subst hq
          exact List.mem_cons_of_mem _ (ih hrest)
      | none =>
          rw [hrest, Option.none_or] at h
          obtain ⟨ka, va⟩ := kv
          by_cases hk : ka = k
          · simp [hk] at h
            subst hk
            subst h
            exact List.mem_cons_self _ _
          · simp [hk] at h

theorem SuiPeers.lastValue?_isSome_iff (l : List (Ed25519PublicKey × SuiPeer))
    (k : Ed25519PublicKey) :
    (SuiPeers.lastValue? l k).isSome = true ↔ k ∈ l.map Prod.fst := by
  induction l with
  | nil => simp [SuiPeers.lastValue?]
  | cons kv rest ih =>
      by_cases hk : kv.1 = k
      · simp [SuiPeers.lastValue?, Option.isSome_or, hk, ih]
      · have hk' : ¬ k = kv.1 := fun h => hk h.symm
        simp [SuiPeers.lastValue?, Option.isSome_or, hk, hk', ih]

theorem SuiPeers.find?_isSome_iff (m : SuiPeers) (k : Ed25519PublicKey) :
    (SuiPeers.find? m k).isSome = true ↔ k ∈ m.map Prod.fst := by
  induction m with
  | nil => simp [SuiPeers.find?]
  | cons kv rest ih =>
      obtain ⟨ka, va⟩ := kv
      by_cases hk : ka = k
      · simp [SuiPeers.find?, hk, ih]
      · have hk' : ¬ k = ka := fun h => hk h.symm
        simp [SuiPeers.find?, hk, hk', ih]

theorem SuiNodeProvider.get_eq_find? (m : SuiPeers) (k : Ed25519PublicKey) :
    SuiNodeProvider.get m k = SuiPeers.find? m k := by
  unfold SuiNodeProvider.get
  cases SuiPeers.find? m k <;> rfl

/-! ## Lemmas about extract -/

theorem extractRecord_isSome (vm : SuiValidatorSummary) :
    (extractRecord vm).isSome = validRecord vm := by
  cases h1 : Ed25519PublicKey.fromBytes vm.network_pubkey_bytes with
  | none => simp [extractRecord, validRecord, h1]
  | some pk =>
      cases h2 : Multiaddr.tryFrom vm.p2p_address with
      | none => simp [extractRecord, validRecord, h1, h2]
      | some a => simp [extractRecord, validRecord, h1, h2]

theorem extractRecord_none_of_invalid (vm : SuiValidatorSummary)
    (h : validRecord vm = false) : extractRecord vm = none := by
  cases he : extractRecord vm with
  | none => rfl
  | some r =>
      have hs := extractRecord_isSome vm
      rw [he, h] at hs
      simp at hs

theorem extractRecord_key_eq (vm : SuiValidatorSummary) (k : Ed25519PublicKey)
    (p : SuiPeer) (h : extractRecord vm = some (k, p)) : p.public_key = k := by
  cases h1 : Ed25519PublicKey.fromBytes vm.network_pubkey_bytes with
  | none =>
      unfold extractRecord at h
      rw [h1] at h
      simp at h
  | some pk =>
      cases h2 : Multiaddr.tryFrom vm.p2p_address with
      | none =>
          unfold extractRecord at h
          rw [h1, h2] at h
          simp at h
      | some a =>
          unfold extractRecord at h
          rw [h1, h2] at h
          simp only [Option.some.injEq, Prod.mk.injEq] at h
          obtain ⟨hk, hp⟩ := h
          subst hp
          subst hk
          rfl

theorem mem_extract (s : SuiSystemStateSummary) (k : Ed25519PublicKey) (p : SuiPeer)
    (h : (k, p) ∈ extract s) :
    ∃ vm, vm ∈ s.active_validators ∧ extractRecord vm = some (k, p) := by
  unfold extract at h
  exact List.mem_filterMap.mp h

theorem length_extract_all_valid (l : List SuiValidatorSummary)
    (h : ∀ vm ∈ l, validRecord vm = true) :
    (l.filterMap extractRecord).length = l.length := by
  induction l with
  | nil => rfl
  | cons vm rest ih =>
      have hvm := h vm (List.mem_cons_self _ _)
      have hs : (extractRecord vm).isSome = true := by rw [extractRecord_isSome, hvm]
      obtain ⟨r, hr⟩ := Option.isSome_iff_exists.mp hs
      simp [List.filterMap_cons, hr, ih fun x hx => h x (List.mem_cons_of_mem _ hx)]

/-! ## Lemmas about key uniqueness in the map -/

theorem SuiPeers.mem_keys_insert (m : SuiPeers) (k : Ed25519PublicKey) (v : SuiPeer)
    (x : Ed25519PublicKey) (h : x ∈ (SuiPeers.insert m k v).map Prod.fst) :
    x = k ∨ x ∈ m.map Prod.fst := by
  induction m with
  | nil =>
      simp [SuiPeers.insert] at h
      exact Or.inl h
  | cons kv rest ih =>
      obtain ⟨ka, va⟩ := kv
      by_cases h1 : ka = k
      · subst h1
        rw [SuiPeers.insert, if_pos rfl] at h
        simp only [List.map_cons, List.mem_cons] at h
        rcases h with h | h
        · exact Or.inr (by simp [h])
        · exact Or.inr (by simp [h])
      · rw [SuiPeers.insert, if_neg h1] at h
        simp only [List.map_cons, List.mem_cons] at h
        rcases h with h | h
        · exact Or.inr (by simp [h])
        · rcases ih h with h' | h'
          · exact Or.inl h'
          · exact Or.inr (by simp [h'])

theorem SuiPeers.nodupKeys_insert (m : SuiPeers) (k : Ed25519PublicKey) (v : SuiPeer)
    (h : (m.map Prod.fst).Nodup) :
    ((SuiPeers.insert m k v).map Prod.fst).Nodup := by
  induction m with
  | nil => simp [SuiPeers.insert]
  | cons kv rest ih =>
      obtain ⟨ka, va⟩ := kv
      simp only [List.map_cons, List.nodup_cons] at h
      obtain ⟨hka, hrest⟩ := h
      by_cases h1 : ka = k
      · subst h1
        rw [SuiPeers.insert, if_pos rfl]
        simp only [List.map_cons, List.nodup_cons]
        exact ⟨hka, hrest⟩
      · rw [SuiPeers.insert, if_neg h1]
        simp only [List.map_cons, List.nodup_cons]
        refine ⟨fun hmem => ?_, ih hrest⟩
        rcases SuiPeers.mem_keys_insert rest k v ka hmem with h' | h'
        · exact h1 h'
        · exact hka h'

theorem SuiPeers.nodupKeys_extendWith (l : List (Ed25519PublicKey × SuiPeer))
    (m : SuiPeers) (h : (m.map Prod.fst).Nodup) :
    ((SuiPeers.extendWith m l).map Prod.fst).Nodup := by
  induction l generalizing m with
  | nil => exact h
  | cons kv rest ih => exact ih _ (SuiPeers.nodupKeys_insert m kv.1 kv.2 h)

/-! ## Claim theorems -/

/-- C1: the membership gate is exactly snapshot membership: in any map
state `allowed k` is true iff `k` is among the stored keys, and after a
successful refresh installing the snapshot extracted from summary `s`,
`allowed k` is true iff `k` is one of the keys `extract` produced and
false for every other key. -/
theorem allowed_iff_member :
    (∀ (m : SuiPeers) (k : Ed25519PublicKey),
        SuiNodeProvider.allowed m k = true ↔ k ∈ m.map Prod.fst) ∧
      (∀ (old : SuiPeers) (s : SuiSystemStateSummary) (k : Ed25519PublicKey),
        SuiNodeProvider.allowed (pollCycle (Except.ok s) old) k = true ↔
          k ∈ (extract s).map Prod.fst) := by
  constructor
  · intro m k
    exact SuiPeers.find?_isSome_iff m k
  · intro old s k
    show (SuiPeers.find? (SuiPeers.extendWith (SuiPeers.clear old) (extract s)) k).isSome
        = true ↔ _
    rw [SuiPeers.find?_extendWith]
    have hnone : SuiPeers.find? (SuiPeers.clear old) k = none := rfl
    rw [hnone, Option.or_none]
    exact SuiPeers.lastValue?_isSome_iff _ k

/-- C2: a refresh cycle failing with a transport or decode error leaves
the Trust Store unmutated: `allowed` and `get` answer identically for
every key before and after the failed cycle. -/
theorem failed_cycle_preserves_store (e : GetValidatorsError) (m : SuiPeers)
    (k : Ed25519PublicKey) :
    SuiNodeProvider.allowed (pollCycle (Except.error e) m) k
        = SuiNodeProvider.allowed m k ∧
      SuiNodeProvider.get (pollCycle (Except.error e) m) k = SuiNodeProvider.get m k :=
  ⟨rfl, rfl⟩

/-- C3: extraction keeps exactly the records that decode: if every record
of `l1 ++ l2` is valid and `bad` is not (corrupt key bytes or invalid
address), the summary containing `bad` extracts to exactly the peer list
of the summary without it (the other records unaffected), and the
all-valid summary of `n` records yields exactly `n` peers -- so the
`bad` summary yields `n - 1`. -/
theorem extract_drops_only_invalid (l1 l2 : List SuiValidatorSummary)
    (bad : SuiValidatorSummary)
    (hv : ∀ vm ∈ l1 ++ l2, validRecord vm = true)
    (hb : validRecord bad = false) :
    extract ⟨l1 ++ bad :: l2⟩ = extract ⟨l1 ++ l2⟩ ∧
      (extract ⟨l1 ++ l2⟩).length = (l1 ++ l2).length := by
  constructor
  · show (l1 ++ bad :: l2).filterMap extractRecord = (l1 ++ l2).filterMap extractRecord
    rw [List.filterMap_append, List.filterMap_append,
      List.filterMap_cons_none (extractRecord_none_of_invalid bad hb)]
  · exact length_extract_all_valid _ hv

/-- Witness for C3 at the spec's three-validator scenario: validator #2
has 31 key bytes, validators #1 and #3 are valid. -/
theorem extract_drops_only_invalid_witness :
    extract ⟨[validator1] ++ validator2bad :: [validator3]⟩ =
        extract ⟨[validator1] ++ [validator3]⟩ ∧
      (extract ⟨[validator1] ++ [validator3]⟩).length =
        ([validator1] ++ [validator3]).length :=
  extract_drops_only_invalid [validator1] [validator3] validator2bad
    (by decide) (by decide)

/-- C4 counterexample: on a summary holding two valid records that share
one public key, `extract`'s output holds two entries with that same key:
the output of `extract` is not one-entry-per-unique-key. -/
theorem extract_output_repeats_key :
    (extract dupSummary).map Prod.fst = [key1, key1] ∧
      ¬ ((extract dupSummary).map Prod.fst).Nodup := by
  constructor <;> decide

/-- C4 amended: `extract`'s output list carries one entry per
successfully-decoded occurrence, so its cardinality never exceeds the
input's (no collision hypothesis needed); the one-entry-per-unique-key
property holds of the snapshot a successful refresh installs from that
output. -/
theorem extract_card_bound_and_snapshot_unique_keys (s : SuiSystemStateSummary)
    (old : SuiPeers) :
    (extract s).length ≤ s.active_validators.length ∧
      ((pollCycle (Except.ok s) old).map Prod.fst).Nodup := by
  constructor
  · exact List.length_filterMap_le extractRecord s.active_validators
  · exact SuiPeers.nodupKeys_extendWith (extract s) (SuiPeers.clear old) List.nodup_nil

/-- C5 counterexample: `get_validators` never inspects the HTTP status: a
response carrying status 500 whose body is a well-formed envelope is
decoded and returned as success instead of being reported as a failure. -/
theorem get_validators_ignores_status :
    get_validators (FetchOutcome.response ⟨500, RawBody.envelope ⟨[]⟩⟩) =
      Except.ok ⟨[]⟩ := rfl

/-- C5 amended: the failure conditions the code distinguishes map to
pairwise distinct error kinds -- transport/connection failure to
`transport`, body-read failure to `bodyRead`, and an undecodable response
body (malformed JSON and schema mismatch together) to `decode`; the HTTP
status code is never consulted, so a non-success status aborts the fetch
only through its body failing to decode. -/
theorem get_validators_error_mapping (r : HttpResponse)
    (h : decodeBody r.body = none) :
    get_validators FetchOutcome.sendFailure
        = Except.error GetValidatorsError.transport ∧
      get_validators FetchOutcome.bodyFailure
        = Except.error GetValidatorsError.bodyRead ∧
      get_validators (FetchOutcome.response r)
        = Except.error GetValidatorsError.decode ∧
      (GetValidatorsError.transport ≠ GetValidatorsError.bodyRead ∧
        GetValidatorsError.transport ≠ GetValidatorsError.decode ∧
        GetValidatorsError.bodyRead ≠ GetValidatorsError.decode) := by
  refine ⟨rfl, rfl, ?_, by decide⟩
  have hstep : get_validators (FetchOutcome.response r) =
      match decodeBody r.body with
      | some summary => Except.ok summary
      | none => Except.error GetValidatorsError.decode := rfl
  rw [hstep, h]

/-- Witness for C5 amended at a concrete undecodable response. -/
theorem get_validators_error_mapping_witness :
    get_validators FetchOutcome.sendFailure
        = Except.error GetValidatorsError.transport ∧
      get_validators FetchOutcome.bodyFailure
        = Except.error GetValidatorsError.bodyRead ∧
      get_validators (FetchOutcome.response ⟨500, RawBody.malformed "oops"⟩)
        = Except.error GetValidatorsError.decode ∧
      (GetValidatorsError.transport ≠ GetValidatorsError.bodyRead ∧
        GetValidatorsError.transport ≠ GetValidatorsError.decode ∧
        GetValidatorsError.bodyRead ≠ GetValidatorsError.decode) :=
  get_validators_error_mapping ⟨500, RawBody.malformed "oops"⟩ rfl

/-- C6: the install performed by `poll_peer_list` is atomic with respect
to concurrent readers: at every point `n` of the writer's micro-step
sequence (acquire the write guard, clear, extend, release), a reader that
is not blocked on the lock observes either the complete old map or the
complete new snapshot -- never a partial state, and in particular never
the transient empty map between `clear` and `extend`, which exists only
while the write guard is held. -/
theorem install_atomic_for_readers (n : Nat) (old : SuiPeers)
    (peers : List (Ed25519PublicKey × SuiPeer)) (view : SuiPeers)
    (h : observable (execSteps old peers n) = some view) :
    view = old ∨ view = SuiPeers.extendWith (SuiPeers.clear old) peers := by
  match n with
  | 0 =>
      left
      have h' : some old = some view := h
      injection h' with h''
      exact h''.symm
  | 1 => simp [execSteps, installSteps, runStep, observable] at h
  | 2 => simp [execSteps, installSteps, runStep, observable] at h
  | 3 => simp [execSteps, installSteps, runStep, observable] at h
  | (m + 4) =>
      right
      have hlen : installSteps.length ≤ m + 4 := by simp [installSteps]
      have hsteps : installSteps.take (m + 4) = installSteps :=
        List.take_of_length_le hlen
      unfold execSteps at h
      rw [hsteps] at h
      have h' : some (SuiPeers.extendWith (SuiPeers.clear old) peers) = some view := h
      injection h' with h''
      exact h''.symm

/-- Witness for C6: after the full four-step install over concrete
contents, the reader observes exactly the new complete snapshot. -/
theorem install_atomic_for_readers_witness :
    [(key1, peer1)] = ([] : SuiPeers) ∨
      [(key1, peer1)] = SuiPeers.extendWith (SuiPeers.clear []) [(key1, peer1)] :=
  install_atomic_for_readers 4 [] [(key1, peer1)] [(key1, peer1)] rfl

/-- C7: round-trip: every public key that `extract` produced, once the
snapshot is installed by a successful refresh, looks up through `get` to
a record `extract` produced, equal in all fields. -/
theorem roundtrip_extract_install_lookup (old : SuiPeers)
    (s : SuiSystemStateSummary) (k : Ed25519PublicKey)
    (h : ∃ p, (k, p) ∈ extract s) :
    ∃ p, (k, p) ∈ extract s ∧
      SuiNodeProvider.get (pollCycle (Except.ok s) old) k = some p := by
  have hfind : SuiPeers.find? (pollCycle (Except.ok s) old) k =
      SuiPeers.lastValue? (extract s) k := by
    show SuiPeers.find? (SuiPeers.extendWith (SuiPeers.clear old) (extract s)) k = _
    rw [SuiPeers.find?_extendWith]
    exact Option.or_none
  obtain ⟨p0, hp0⟩ := h
  have hmem : k ∈ (extract s).map Prod.fst := by
    simp only [List.mem_map]
    exact ⟨(k, p0), hp0, rfl⟩
  have hsome : (SuiPeers.lastValue? (extract s) k).isSome = true :=
    (SuiPeers.lastValue?_isSome_iff _ k).mpr hmem
  obtain ⟨p, hp⟩ := Option.isSome_iff_exists.mp hsome
  refine ⟨p, SuiPeers.lastValue?_mem _ _ _ hp, ?_⟩
  rw [SuiNodeProvider.get_eq_find?, hfind, hp]

/-- Witness for C7 on a one-validator summary. -/
theorem roundtrip_extract_install_lookup_witness :
    ∃ p, (key1, p) ∈ extract summary1 ∧
      SuiNodeProvider.get (pollCycle (Except.ok summary1) []) key1 = some p :=
  roundtrip_extract_install_lookup [] summary1 key1 ⟨peer1, by decide⟩

/-- C8: the boolean gate and the lookup agree in every map state:
`allowed k` is true exactly when `get k` returns a record. -/
theorem allowed_iff_get_some (m : SuiPeers) (k : Ed25519PublicKey) :
    SuiNodeProvider.allowed m k = true ↔ (SuiNodeProvider.get m k).isSome = true := by
  rw [SuiNodeProvider.get_eq_find?]
  exact Iff.rfl

/-- C9: key-consistency invariant: in every reachable Trust Store state
(empty at start, transformed only by refresh cycles), a stored record's
`public_key` field equals the key it is stored under. -/
theorem reachable_key_consistent (m : SuiPeers) (hm : Reachable m)
    (k : Ed25519PublicKey) (p : SuiPeer)
    (h : SuiPeers.find? m k = some p) : p.public_key = k := by
  induction hm with
  | init => simp [SuiPeers.find?] at h
  | step m' r hr ih =>
      cases r with
      | error e => exact ih h
      | ok s =>
          have hfind : SuiPeers.find? (pollCycle (Except.ok s) m') k =
              SuiPeers.lastValue? (extract s) k := by
            show SuiPeers.find? (SuiPeers.extendWith (SuiPeers.clear m') (extract s)) k = _
            rw [SuiPeers.find?_extendWith]
            exact Option.or_none
          rw [hfind] at h
          have hmem := SuiPeers.lastValue?_mem _ _ _ h
          obtain ⟨vm, _, hvm⟩ := mem_extract s k p hmem
          exact extractRecord_key_eq vm k p hvm

/-- Witness for C9 at the state reached by one successful refresh. -/
theorem reachable_key_consistent_witness : peer1.public_key = key1 :=
  reachable_key_consistent (pollCycle (Except.ok summary1) [])
    (Reachable.step [] (Except.ok summary1) Reachable.init) key1 peer1 (by decide)

/-- C10: the snapshot a successful refresh installs maps every key to the
value of that key's last occurrence in `extract`'s output order: during
`extend`, later duplicates overwrite earlier ones. -/
theorem snapshot_maps_key_to_last_occurrence (old : SuiPeers)
    (s : SuiSystemStateSummary) (k : Ed25519PublicKey) :
    SuiPeers.find? (pollCycle (Except.ok s) old) k =
      SuiPeers.lastValue? (extract s) k := by
  show SuiPeers.find? (SuiPeers.extendWith (SuiPeers.clear old) (extract s)) k = _
  rw [SuiPeers.find?_extendWith]
  exact Option.or_none
